import Mathlib

/-!
# AVL insertion of `controllers/index.c`

A shallow embedding of the AVL tree of `src/controllers/index.c` and the
properties of its insertion.

Modelling decisions.

* A value of type `N` stands for a C pointer `N*` to an acyclic, singly owned
  tree: `N.nil` is `NULL`, `N.node k h l r` is a pointer to a struct with the
  fields `k`, `h`, `l`, `r`.  The in-place pointer updates of the C code become
  the construction of the updated node.
* The C type `int` is modelled by `Int`.  Keys are only compared.  The only
  arithmetic is `+ 1` on heights and the difference of two heights; on a
  height-correct tree these stay far inside the range of `int` (a tree of
  height `h` has at least `h` nodes), so `ins`, `rRot` and `lRot` compute over
  `Int` without wrap-around.
* For the rotations on trees with arbitrary height fields, where the sum
  `max(..) + 1` can leave the range of `int`, `rRot32` and `lRot32` are the
  rotations with the 32-bit arithmetic of the source; they agree with `rRot`
  and `lRot` whenever the new heights are values of `int`.
* Reading a field through `NULL` is modelled by `none`: `rRot`, `lRot` and
  `ins` return `Option N`.
-/

namespace AVL

/-- The C type `N*`: `nil` is `NULL`, `node k h l r` a struct with these fields. -/
inductive N where
  | nil : N
  | node (k h : Int) (l r : N) : N
  deriving DecidableEq

open N

/-- Source: `int ht(N *n) { return n ? n->h : 0; }`. -/
def ht : N → Int
  | nil => 0
  | node _ h _ _ => h

/-- Source: `int max(int a, int b) { return (a > b) ? a : b; }`. -/
def max (a b : Int) : Int := if a > b then a else b

/-- Source: `new(k)`, a fresh node with key `k`, no children and `h = 1`. -/
def new (k : Int) : N := node k 1 nil nil

/-- Source: `rRot(y)`.  `x = y->l; T2 = x->r; x->r = y; y->l = T2;` then the
height of `y` and after it the height of `x` are recomputed.  Reading `y->l`
of `NULL` or `x->r` of `NULL` gives `none`. -/
def rRot : N → Option N
  | node ky _ (node kx _ xl T2) yr =>
    let y := node ky (max (ht T2) (ht yr) + 1) T2 yr
    some (node kx (max (ht xl) (ht y) + 1) xl y)
  | _ => none

/-- Source: `lRot(x)`.  `y = x->r; T2 = y->l; y->l = x; x->r = T2;` then the
height of `x` and after it the height of `y` are recomputed.  Reading `x->r`
of `NULL` or `y->l` of `NULL` gives `none`. -/
def lRot : N → Option N
  | node kx _ xl (node ky _ T2 yr) =>
    let x := node kx (max (ht xl) (ht T2) + 1) xl T2
    some (node ky (max (ht x) (ht yr) + 1) x yr)
  | _ => none

/-- Source: `int getBal(N* n) { return n ? ht(n->l) - ht(n->r) : 0; }`. -/
def getBal : N → Int
  | nil => 0
  | node _ _ l r => ht l - ht r

/-- The read `n->k`, which fails on `NULL`. -/
def key : N → Option Int
  | nil => none
  | node k _ _ _ => some k

/-- Source: lines 40 to 48 of `ins`, run on the node with key `nk` and children
`l`, `r` after the recursive call has replaced one child: the height is
recomputed, the balance factor taken, and the four tests are tried in the
order of the source.  `&&` evaluates its right operand only when the left one
holds, so a child's key is read only behind its balance test. -/
def rebalance (nk : Int) (l r : N) (k : Int) : Option N :=
  let h := 1 + max (ht l) (ht r)
  let n := node nk h l r
  let bal := getBal n
  do
    let c1 ← if bal > 1 then (key l).map (fun lk => decide (k < lk)) else some false
    if c1 then rRot n else
    let c2 ← if bal < -1 then (key r).map (fun rk => decide (k > rk)) else some false
    if c2 then lRot n else
    let c3 ← if bal > 1 then (key l).map (fun lk => decide (k > lk)) else some false
    if c3 then (lRot l).bind (fun l1 => rRot (node nk h l1 r)) else
    let c4 ← if bal < -1 then (key r).map (fun rk => decide (k < rk)) else some false
    if c4 then (rRot r).bind (fun r1 => lRot (node nk h l r1)) else
    some n

/-- Source: `ins(n, k)`. -/
def ins : N → Int → Option N
  | nil, k => some (new k)
  | node nk nh l r, k =>
    if k < nk then (ins l k).bind (fun l1 => rebalance nk l1 r k)
    else if k > nk then (ins r k).bind (fun r1 => rebalance nk l r1 k)
    else some (node nk nh l r)

/-- Source: `pre(n)`; the keys in the order in which they are printed. -/
def pre : N → List Int
  | nil => []
  | node k _ l r => k :: (pre l ++ pre r)

/-- Source: the loop of `main`, `root = ins(root, vals[i])` for each `i` in
order, started from a given root. -/
def insAll : Option N → List Int → Option N
  | t, [] => t
  | t, k :: ks => insAll (t.bind (fun n => ins n k)) ks

/-- Source: `main`, the tree built from `NULL` by inserting the given keys. -/
def build (ks : List Int) : Option N := insAll (some nil) ks

/-- Source: `int vals[] = {10, 20, 30, 40, 50, 25};` of `main`. -/
def vals : List Int := [10, 20, 30, 40, 50, 25]

/-- The keys of a tree from left to right. -/
def inorder : N → List Int
  | nil => []
  | node k _ l r => inorder l ++ k :: inorder r

/-- The number of nodes. -/
def size : N → Nat
  | nil => 0
  | node _ _ l r => size l + size r + 1

/-- The 609 keys 1 to 609 in the order in which the nodes of the sparsest
balanced tree of height 13 are met level by level, the key of a node being its
rank from the left; inserted in this order they need no rotation. -/
def keys609 : List Int :=
  [377, 233, 521, 144, 322, 466, 576, 89, 199, 288, 356, 432, 500, 555, 597, 55, 123, 178, 220,
   267, 309, 343, 369, 411, 453, 487, 513, 542, 568, 589, 605, 34, 76, 110, 136, 165, 191, 212,
   228, 254, 280, 301, 317, 335, 351, 364, 374, 398, 424, 445, 461, 479, 495, 508, 518, 534,
   550, 563, 573, 584, 594, 602, 608, 21, 47, 68, 84, 102, 118, 131, 141, 157, 173, 186, 196,
   207, 217, 225, 231, 246, 262, 275, 285, 296, 306, 314, 320, 330, 340, 348, 354, 361, 367,
   372, 376, 390, 406, 419, 429, 440, 450, 458, 464, 474, 484, 492, 498, 505, 511, 516, 520,
   529, 539, 547, 553, 560, 566, 571, 575, 581, 587, 592, 596, 600, 604, 607, 609, 13, 29, 42,
   52, 63, 73, 81, 87, 97, 107, 115, 121, 128, 134, 139, 143, 152, 162, 170, 176, 183, 189, 194,
   198, 204, 210, 215, 219, 223, 227, 230, 232, 241, 251, 259, 265, 272, 278, 283, 287, 293,
   299, 304, 308, 312, 316, 319, 321, 327, 333, 338, 342, 346, 350, 353, 355, 359, 363, 366,
   368, 371, 373, 375, 385, 395, 403, 409, 416, 422, 427, 431, 437, 443, 448, 452, 456, 460,
   463, 465, 471, 477, 482, 486, 490, 494, 497, 499, 503, 507, 510, 512, 515, 517, 519, 526,
   532, 537, 541, 545, 549, 552, 554, 558, 562, 565, 567, 570, 572, 574, 579, 583, 586, 588,
   591, 593, 595, 599, 601, 603, 606, 8, 18, 26, 32, 39, 45, 50, 54, 60, 66, 71, 75, 79, 83, 86,
   88, 94, 100, 105, 109, 113, 117, 120, 122, 126, 130, 133, 135, 138, 140, 142, 149, 155, 160,
   164, 168, 172, 175, 177, 181, 185, 188, 190, 193, 195, 197, 202, 206, 209, 211, 214, 216,
   218, 222, 224, 226, 229, 238, 244, 249, 253, 257, 261, 264, 266, 270, 274, 277, 279, 282,
   284, 286, 291, 295, 298, 300, 303, 305, 307, 311, 313, 315, 318, 325, 329, 332, 334, 337,
   339, 341, 345, 347, 349, 352, 358, 360, 362, 365, 370, 382, 388, 393, 397, 401, 405, 408,
   410, 414, 418, 421, 423, 426, 428, 430, 435, 439, 442, 444, 447, 449, 451, 455, 457, 459,
   462, 469, 473, 476, 478, 481, 483, 485, 489, 491, 493, 496, 502, 504, 506, 509, 514, 524,
   528, 531, 533, 536, 538, 540, 544, 546, 548, 551, 557, 559, 561, 564, 569, 578, 580, 582,
   585, 590, 598, 5, 11, 16, 20, 24, 28, 31, 33, 37, 41, 44, 46, 49, 51, 53, 58, 62, 65, 67, 70,
   72, 74, 78, 80, 82, 85, 92, 96, 99, 101, 104, 106, 108, 112, 114, 116, 119, 125, 127, 129,
   132, 137, 147, 151, 154, 156, 159, 161, 163, 167, 169, 171, 174, 180, 182, 184, 187, 192,
   201, 203, 205, 208, 213, 221, 236, 240, 243, 245, 248, 250, 252, 256, 258, 260, 263, 269,
   271, 273, 276, 281, 290, 292, 294, 297, 302, 310, 324, 326, 328, 331, 336, 344, 357, 380,
   384, 387, 389, 392, 394, 396, 400, 402, 404, 407, 413, 415, 417, 420, 425, 434, 436, 438,
   441, 446, 454, 468, 470, 472, 475, 480, 488, 501, 523, 525, 527, 530, 535, 543, 556, 577, 3,
   7, 10, 12, 15, 17, 19, 23, 25, 27, 30, 36, 38, 40, 43, 48, 57, 59, 61, 64, 69, 77, 91, 93,
   95, 98, 103, 111, 124, 146, 148, 150, 153, 158, 166, 179, 200, 235, 237, 239, 242, 247, 255,
   268, 289, 323, 379, 381, 383, 386, 391, 399, 412, 433, 467, 522, 2, 4, 6, 9, 14, 22, 35, 56,
   90, 145, 234, 378, 1]

/-- The shape of a tree that an insertion of `k` has made one taller: a fresh
leaf with key `k`, or a node that leans to the side on which `k` lies. -/
def Grow : N → Int → Prop
  | nil, _ => False
  | node k1 _ l r, k =>
    (k = k1 ∧ l = nil ∧ r = nil) ∨ (k < k1 ∧ ht l = ht r + 1) ∨ (k1 < k ∧ ht r = ht l + 1)

/-- Invariant 1, BST order: at every node the keys of the left subtree are
smaller and the keys of the right subtree larger than the node's key. -/
def BST : N → Prop
  | nil => True
  | node k _ l r => (∀ x ∈ inorder l, x < k) ∧ (∀ x ∈ inorder r, k < x) ∧ BST l ∧ BST r

/-- Invariant 2, height correctness: at every node `h = 1 + max(ht(l), ht(r))`. -/
def HeightOK : N → Prop
  | nil => True
  | node _ h l r => h = 1 + max (ht l) (ht r) ∧ HeightOK l ∧ HeightOK r

/-- Invariant 3, balance: at every node `|ht(l) - ht(r)| <= 1`. -/
def Balanced : N → Prop
  | nil => True
  | node _ _ l r => (ht l - ht r ≤ 1 ∧ ht r - ht l ≤ 1) ∧ Balanced l ∧ Balanced r

/-- Invariants 1 to 3 together. -/
def Inv (t : N) : Prop := BST t ∧ HeightOK t ∧ Balanced t

instance decGrow (t : N) (k : Int) : Decidable (Grow t k) := by
  cases t <;> unfold Grow <;> exact inferInstance

instance decBST : (t : N) → Decidable (BST t)
  | nil => isTrue trivial
  | node k _ l r =>
    have := decBST l
    have := decBST r
    by unfold BST; exact inferInstance

instance decHeightOK : (t : N) → Decidable (HeightOK t)
  | nil => isTrue trivial
  | node _ _ l r =>
    have := decHeightOK l
    have := decHeightOK r
    by unfold HeightOK; exact inferInstance

instance decBalanced : (t : N) → Decidable (Balanced t)
  | nil => isTrue trivial
  | node _ _ l r =>
    have := decBalanced l
    have := decBalanced r
    by unfold Balanced; exact inferInstance

instance decInv (t : N) : Decidable (Inv t) := by unfold Inv; exact inferInstance

/-- The values of the C type `int`: 32 bits, two's complement. -/
def int32 (x : Int) : Prop := -2147483648 ≤ x ∧ x ≤ 2147483647

instance decInt32 (x : Int) : Decidable (int32 x) := by unfold int32; exact inferInstance

/-- The `int` that a 32-bit machine stores for the sum `x`: `x` itself when it
is a value of `int`, else `x` wrapped around modulo `2 ^ 32`. -/
def wrap32 (x : Int) : Int := (x + 2147483648) % 4294967296 - 2147483648

/-- Source: `rRot(y)` with the two sums `max(..) + 1` taken in the 32-bit type
`int` of the source. -/
def rRot32 : N → Option N
  | node ky _ (node kx _ xl T2) yr =>
    let y := node ky (wrap32 (max (ht T2) (ht yr) + 1)) T2 yr
    some (node kx (wrap32 (max (ht xl) (ht y) + 1)) xl y)
  | _ => none

/-- Source: `lRot(x)` with the two sums `max(..) + 1` taken in the 32-bit type
`int` of the source. -/
def lRot32 : N → Option N
  | node kx _ xl (node ky _ T2 yr) =>
    let x := node kx (wrap32 (max (ht xl) (ht T2) + 1)) xl T2
    some (node ky (wrap32 (max (ht x) (ht yr) + 1)) x yr)
  | _ => none

/-- Source: lines 36 to 40 of `ins`, the node `n'` on which the balance factor
is taken: `n` with the child on the side of `k` replaced by the result of the
recursive call and with the height recomputed.  The value is `none` when line
40 is not reached (`n` is `NULL` or `k` is the key of `n`) or when the
recursive call has no result. -/
def descend : N → Int → Option N
  | nil, _ => none
  | node nk _ l r, k =>
    if k < nk then (ins l k).map (fun l1 => node nk (1 + max (ht l1) (ht r)) l1 r)
    else if k > nk then (ins r k).map (fun r1 => node nk (1 + max (ht l) (ht r1)) l r1)
    else none

/-- Source: line 41 of `ins`, `bal = getBal(n)` in the call `ins(n, k)`. -/
def balAfter (n : N) (k : Int) : Option Int := (descend n k).map getBal

/-- Source: the test of line 43, `bal > 1 && k < n->l->k` (Left-Left). -/
def caseLL : N → Int → Option Bool
  | nil, _ => none
  | node nk h l r, k =>
    if getBal (node nk h l r) > 1 then (key l).map (fun lk => decide (k < lk)) else some false

/-- Source: the test of line 44, `bal < -1 && k > n->r->k` (Right-Right). -/
def caseRR : N → Int → Option Bool
  | nil, _ => none
  | node nk h l r, k =>
    if getBal (node nk h l r) < -1 then (key r).map (fun rk => decide (k > rk)) else some false

/-- Source: the test of line 45, `bal > 1 && k > n->l->k` (Left-Right). -/
def caseLR : N → Int → Option Bool
  | nil, _ => none
  | node nk h l r, k =>
    if getBal (node nk h l r) > 1 then (key l).map (fun lk => decide (k > lk)) else some false

/-- Source: the test of line 46, `bal < -1 && k < n->r->k` (Right-Left). -/
def caseRL : N → Int → Option Bool
  | nil, _ => none
  | node nk h l r, k =>
    if getBal (node nk h l r) < -1 then (key r).map (fun rk => decide (k < rk)) else some false

/-- The four tests of lines 43 to 46 on the node `n'`, in the order of the
source. -/
def cases4 (n : N) (k : Int) : List (Option Bool) :=
  [caseLL n k, caseRR n k, caseLR n k, caseRL n k]

/-- The ancestors of a node: the path from the root of a tree down to a hole,
with the key and height field of every node on the path and its subtree on the
other side. -/
inductive Ctx where
  | hole : Ctx
  | inL (pk ph : Int) (c : Ctx) (r : N) : Ctx
  | inR (pk ph : Int) (l : N) (c : Ctx) : Ctx
  deriving DecidableEq

/-- The tree with the subtree `n` in the hole of the path `c`. -/
def plug : Ctx → N → N
  | Ctx.hole, n => n
  | Ctx.inL pk ph c r, n => node pk ph (plug c n) r
  | Ctx.inR pk ph l c, n => node pk ph l (plug c n)

/-- The search for `k` follows the path `c` down to its hole: lines 36 and 37
of `ins` choose the child on the path at every node of it. -/
def onPath : Ctx → Int → Prop
  | Ctx.hole, _ => True
  | Ctx.inL pk _ c _, k => k < pk ∧ onPath c k
  | Ctx.inR pk _ _ c, k => pk < k ∧ onPath c k

instance decOnPath : (c : Ctx) → (k : Int) → Decidable (onPath c k)
  | Ctx.hole, _ => isTrue trivial
  | Ctx.inL _ _ c _, k =>
    have := decOnPath c k
    by unfold onPath; exact inferInstance
  | Ctx.inR _ _ _ c, k =>
    have := decOnPath c k
    by unfold onPath; exact inferInstance

/-! ## Basic facts -/

theorem max_eq (a b : Int) : max a b = Max.max a b := by
  unfold max; split <;> omega

@[simp] theorem ht_nil : ht nil = 0 := rfl
@[simp] theorem ht_node (k h : Int) (l r : N) : ht (node k h l r) = h := rfl
@[simp] theorem key_nil : key nil = none := rfl
@[simp] theorem key_node (k h : Int) (l r : N) : key (node k h l r) = some k := rfl
@[simp] theorem getBal_node (k h : Int) (l r : N) : getBal (node k h l r) = ht l - ht r := rfl

theorem rebalance_noRot (nk : Int) (l r : N) (k : Int)
    (h1 : ht l - ht r ≤ 1) (h2 : ht r - ht l ≤ 1) :
    rebalance nk l r k = some (node nk (1 + max (ht l) (ht r)) l r) := by
  have a1 : ¬ (ht l - ht r > 1) := by omega
  have a2 : ¬ (ht l - ht r < -1) := by omega
  simp [rebalance, a1, a2]

theorem rebalance_LL (nk : Int) (lk lh : Int) (A T2 r : N) (k : Int)
    (h1 : 1 < lh - ht r) (h2 : k < lk) :
    rebalance nk (node lk lh A T2) r k
      = rRot (node nk (1 + max lh (ht r)) (node lk lh A T2) r) := by
  simp [rebalance, h1, h2]

theorem rebalance_LR (nk : Int) (lk lh : Int) (A T2 r : N) (k : Int)
    (h1 : 1 < lh - ht r) (h2 : lk < k) :
    rebalance nk (node lk lh A T2) r k
      = (lRot (node lk lh A T2)).bind
          (fun l1 => rRot (node nk (1 + max lh (ht r)) l1 r)) := by
  have a1 : ¬ (k < lk) := by omega
  have a2 : ¬ (lh - ht r < -1) := by omega
  simp [rebalance, h1, h2, a1, a2]

theorem rebalance_RR (nk : Int) (l : N) (rk rh : Int) (T2 C : N) (k : Int)
    (h1 : ht l - rh < -1) (h2 : rk < k) :
    rebalance nk l (node rk rh T2 C) k
      = lRot (node nk (1 + max (ht l) rh) l (node rk rh T2 C)) := by
  have a1 : ¬ (1 < ht l - rh) := by omega
  simp [rebalance, h1, h2, a1]

theorem rebalance_RL (nk : Int) (l : N) (rk rh : Int) (T2 C : N) (k : Int)
    (h1 : ht l - rh < -1) (h2 : k < rk) :
    rebalance nk l (node rk rh T2 C) k
      = (rRot (node rk rh T2 C)).bind
          (fun r1 => lRot (node nk (1 + max (ht l) rh) l r1)) := by
  have a1 : ¬ (1 < ht l - rh) := by omega
  have a2 : ¬ (rk < k) := by omega
  simp [rebalance, h1, h2, a1, a2]


theorem ht_nonneg : ∀ t : N, HeightOK t → 0 ≤ ht t
  | nil, _ => by simp
  | node _ h l r, hh => by
    have h1 := ht_nonneg l hh.2.1
    have h2 := hh.1
    simp only [max_eq] at h2
    simp only [ht_node]
    omega

theorem rebalance_left (nk : Int) (l0 l1 r : N) (k : Int)
    (hl1 : HeightOK l1) (bl1 : Balanced l1) (hr : HeightOK r) (br : Balanced r)
    (b0 : ht l0 - ht r ≤ 1 ∧ ht r - ht l0 ≤ 1)
    (hg : ht l1 = ht l0 ∨ (ht l1 = ht l0 + 1 ∧ Grow l1 k))
    (hk : k < nk) :
    ∃ t1, rebalance nk l1 r k = some t1 ∧ HeightOK t1 ∧ Balanced t1 ∧
      inorder t1 = inorder l1 ++ nk :: inorder r ∧
      (ht t1 = 1 + max (ht l0) (ht r) ∨
        (ht t1 = 1 + max (ht l0) (ht r) + 1 ∧ Grow t1 k)) ∧
      (1 < ht l1 - ht r → ht t1 = 1 + max (ht l0) (ht r)) := by
  have hr0 := ht_nonneg r hr
  by_cases hb : ht l1 - ht r ≤ 1
  · have hb2 : ht r - ht l1 ≤ 1 := by omega
    refine ⟨_, rebalance_noRot nk l1 r k hb hb2, ⟨rfl, hl1, hr⟩, ⟨⟨hb, hb2⟩, bl1, br⟩, rfl, ?_, ?_⟩
    · simp only [ht_node, Grow, max_eq]
      omega
    · intro h; omega
  · have hg1 : ht l1 = ht l0 + 1 ∧ Grow l1 k := by
      rcases hg with h | h
      · omega
      · exact h
    obtain ⟨hg1, hg2⟩ := hg1
    cases l1 with
    | nil => exact absurd hg2 (by simp [Grow])
    | node lk lh A T2 =>
      obtain ⟨e1, hA, hT2⟩ := hl1
      obtain ⟨⟨bA1, bA2⟩, bA, bT2⟩ := bl1
      have hA0 := ht_nonneg A hA
      have hT0 := ht_nonneg T2 hT2
      simp only [ht_node] at hb hg1
      simp only [max_eq] at e1
      rcases hg2 with ⟨_, rfl, rfl⟩ | ⟨g1, g2⟩ | ⟨g1, g2⟩
      · simp only [ht_nil] at e1
        omega
      · refine ⟨_, (rebalance_LL nk lk lh A T2 r k (by omega) g1).trans rfl, ?_, ?_, ?_, ?_, ?_⟩
        · refine ⟨?_, hA, ⟨?_, hT2, hr⟩⟩
          · simp only [ht_node, max_eq]; omega
          · simp only [max_eq]; omega
        · refine ⟨⟨?_, ?_⟩, bA, ⟨⟨?_, ?_⟩, bT2, br⟩⟩ <;> (try simp only [ht_node, max_eq]) <;> omega
        · simp [inorder]
        · left; simp only [ht_node, max_eq]; omega
        · intro _; simp only [ht_node, max_eq]; omega
      · cases T2 with
        | nil => simp only [ht_nil] at g2; omega
        | node k2 h2 B C =>
          obtain ⟨e2, hB, hC⟩ := hT2
          obtain ⟨⟨bB1, bB2⟩, bB, bC⟩ := bT2
          have hB0 := ht_nonneg B hB
          have hC0 := ht_nonneg C hC
          simp only [ht_node] at g2 e1 bA1 bA2 hT0
          simp only [max_eq] at e2
          refine ⟨_, (rebalance_LR nk lk lh A (node k2 h2 B C) r k (by omega) g1).trans rfl,
            ?_, ?_, ?_, ?_, ?_⟩
          · refine ⟨?_, ⟨?_, hA, hB⟩, ⟨?_, hC, hr⟩⟩ <;> (try simp only [ht_node, max_eq]) <;> omega
          · refine ⟨⟨?_, ?_⟩, ⟨⟨?_, ?_⟩, bA, bB⟩, ⟨⟨?_, ?_⟩, bC, br⟩⟩ <;>
              (try simp only [ht_node, max_eq]) <;> omega
          · simp [inorder]
          · left; simp only [ht_node, max_eq]; omega
          · intro _; simp only [ht_node, max_eq]; omega

theorem rebalance_right (nk : Int) (l r0 r1 : N) (k : Int)
    (hl : HeightOK l) (bl : Balanced l) (hr1 : HeightOK r1) (br1 : Balanced r1)
    (b0 : ht l - ht r0 ≤ 1 ∧ ht r0 - ht l ≤ 1)
    (hg : ht r1 = ht r0 ∨ (ht r1 = ht r0 + 1 ∧ Grow r1 k))
    (hk : nk < k) :
    ∃ t1, rebalance nk l r1 k = some t1 ∧ HeightOK t1 ∧ Balanced t1 ∧
      inorder t1 = inorder l ++ nk :: inorder r1 ∧
      (ht t1 = 1 + max (ht l) (ht r0) ∨
        (ht t1 = 1 + max (ht l) (ht r0) + 1 ∧ Grow t1 k)) ∧
      (ht l - ht r1 < -1 → ht t1 = 1 + max (ht l) (ht r0)) := by
  have hl0 := ht_nonneg l hl
  by_cases hb : ht r1 - ht l ≤ 1
  · have hb2 : ht l - ht r1 ≤ 1 := by omega
    refine ⟨_, rebalance_noRot nk l r1 k hb2 hb, ⟨rfl, hl, hr1⟩, ⟨⟨hb2, hb⟩, bl, br1⟩, rfl, ?_, ?_⟩
    · simp only [ht_node, Grow, max_eq]
      omega
    · intro h; omega
  · have hg1 : ht r1 = ht r0 + 1 ∧ Grow r1 k := by
      rcases hg with h | h
      · omega
      · exact h
    obtain ⟨hg1, hg2⟩ := hg1
    cases r1 with
    | nil => exact absurd hg2 (by simp [Grow])
    | node rk rh T2 C =>
      obtain ⟨e1, hT2, hC⟩ := hr1
      obtain ⟨⟨bC1, bC2⟩, bT2, bC⟩ := br1
      have hT0 := ht_nonneg T2 hT2
      have hC0 := ht_nonneg C hC
      simp only [ht_node] at hb hg1
      simp only [max_eq] at e1
      rcases hg2 with ⟨_, rfl, rfl⟩ | ⟨g1, g2⟩ | ⟨g1, g2⟩
      · simp only [ht_nil] at e1
        omega
      · cases T2 with
        | nil => simp only [ht_nil] at g2; omega
        | node k2 h2 B D =>
          obtain ⟨e2, hB, hD⟩ := hT2
          obtain ⟨⟨bB1, bB2⟩, bB, bD⟩ := bT2
          have hB0 := ht_nonneg B hB
          have hD0 := ht_nonneg D hD
          simp only [ht_node] at g2 e1 bC1 bC2 hT0
          simp only [max_eq] at e2
          refine ⟨_, (rebalance_RL nk l rk rh (node k2 h2 B D) C k (by omega) g1).trans rfl,
            ?_, ?_, ?_, ?_, ?_⟩
          · refine ⟨?_, ⟨?_, hl, hB⟩, ⟨?_, hD, hC⟩⟩ <;>
              (try simp only [ht_node, max_eq]) <;> omega
          · refine ⟨⟨?_, ?_⟩, ⟨⟨?_, ?_⟩, bl, bB⟩, ⟨⟨?_, ?_⟩, bD, bC⟩⟩ <;>
              (try simp only [ht_node, max_eq]) <;> omega
          · simp [inorder]
          · left; simp only [ht_node, max_eq]; omega
          · intro _; simp only [ht_node, max_eq]; omega
      · refine ⟨_, (rebalance_RR nk l rk rh T2 C k (by omega) g1).trans rfl, ?_, ?_, ?_, ?_, ?_⟩
        · refine ⟨?_, ⟨?_, hl, hT2⟩, hC⟩ <;> (try simp only [ht_node, max_eq]) <;> omega
        · refine ⟨⟨?_, ?_⟩, ⟨⟨?_, ?_⟩, bl, bT2⟩, bC⟩ <;>
            (try simp only [ht_node, max_eq]) <;> omega
        · simp [inorder]
        · left; simp only [ht_node, max_eq]; omega
        · intro _; simp only [ht_node, max_eq]; omega

/-- BST order says that the keys from left to right are strictly increasing. -/
theorem bst_iff : ∀ t : N, BST t ↔ List.Pairwise (· < ·) (inorder t)
  | nil => by simp [BST, inorder]
  | node k h l r => by
    simp only [BST, inorder, List.pairwise_append, List.pairwise_cons, bst_iff l, bst_iff r,
      List.mem_cons]
    constructor
    · rintro ⟨h1, h2, h3, h4⟩
      refine ⟨h3, ⟨h2, h4⟩, ?_⟩
      rintro a ha b (rfl | hb)
      · exact h1 a ha
      · exact lt_trans (h1 a ha) (h2 b hb)
    · rintro ⟨h1, ⟨h2, h3⟩, h4⟩
      exact ⟨fun x hx => h4 x hx k (Or.inl rfl), h2, h1, h3⟩

/-- The full statement about one insertion into a tree that satisfies the
invariants: `ins` returns a tree, the invariants hold again, the keys are the
old ones and `k`, and the height is the old one or one more, the latter only
with the shape `Grow`. -/
theorem ins_spec : ∀ (t : N) (k : Int), Inv t →
    ∃ t1, ins t k = some t1 ∧ Inv t1 ∧ (∀ x, x ∈ inorder t1 ↔ x = k ∨ x ∈ inorder t) ∧
      (ht t1 = ht t ∨ (ht t1 = ht t + 1 ∧ Grow t1 k))
  | nil, k, _ => by
    refine ⟨new k, rfl, ?_, ?_, ?_⟩
    · simp [Inv, new, BST, HeightOK, Balanced, inorder, max]
    · simp [new, inorder]
    · right; simp [new, Grow]
  | node nk nh l r, k, ⟨hb, hh, hbal⟩ => by
    obtain ⟨b1, b2, b3, b4⟩ := hb
    obtain ⟨e, hl, hr⟩ := hh
    obtain ⟨b0, bl, br⟩ := hbal
    rcases lt_trichotomy k nk with hk | hk | hk
    · obtain ⟨l1, i1, ⟨i2, i3, i4⟩, i5, i6⟩ := ins_spec l k ⟨b3, hl, bl⟩
      obtain ⟨t1, r1, r2, r3, r4, r5, _⟩ := rebalance_left nk l l1 r k i3 i4 hr br b0 i6 hk
      refine ⟨t1, ?_, ⟨?_, r2, r3⟩, ?_, ?_⟩
      · simp [ins, hk, i1, r1]
      · rw [bst_iff, r4]
        refine (bst_iff (node nk 0 l1 r)).1 ⟨?_, b2, i2, b4⟩
        intro x hx
        rcases (i5 x).1 hx with rfl | hx
        · exact hk
        · exact b1 x hx
      · intro x
        simp only [r4, inorder, List.mem_append, List.mem_cons, i5]
        exact ⟨by rintro ((h | h) | h | h) <;> simp [h], by rintro (h | h | h | h) <;> simp [h]⟩
      · simpa only [ht_node, e] using r5
    · subst hk
      refine ⟨node k nh l r, ?_, ⟨⟨b1, b2, b3, b4⟩, ⟨e, hl, hr⟩, ⟨b0, bl, br⟩⟩, ?_, Or.inl rfl⟩
      · simp [ins]
      · intro x
        simp only [inorder, List.mem_append, List.mem_cons]
        exact ⟨by rintro (h | h | h) <;> simp [h], by rintro (h | h | h | h) <;> simp [h]⟩
    · obtain ⟨r1, i1, ⟨i2, i3, i4⟩, i5, i6⟩ := ins_spec r k ⟨b4, hr, br⟩
      obtain ⟨t1, q1, q2, q3, q4, q5, _⟩ := rebalance_right nk l r r1 k hl bl i3 i4 b0 i6 hk
      refine ⟨t1, ?_, ⟨?_, q2, q3⟩, ?_, ?_⟩
      · have hk1 : ¬ k < nk := by omega
        simp [ins, hk, hk1, i1, q1]
      · rw [bst_iff, q4]
        refine (bst_iff (node nk 0 l r1)).1 ⟨b1, ?_, b3, i2⟩
        intro x hx
        rcases (i5 x).1 hx with rfl | hx
        · exact hk
        · exact b2 x hx
      · intro x
        simp only [q4, inorder, List.mem_append, List.mem_cons, i5]
        exact ⟨by rintro (h | h | h | h) <;> simp [h], by rintro (h | h | h | h) <;> simp [h]⟩
      · simpa only [ht_node, e] using q5

/-- A tree that satisfies the invariants is returned as it is when the key
is one of its keys. -/
theorem ins_mem : ∀ (t : N) (k : Int), Inv t → k ∈ inorder t → ins t k = some t
  | nil, _, _, hk => by simp [inorder] at hk
  | node nk nh l r, k, ⟨⟨b1, b2, b3, b4⟩, ⟨e, hl, hr⟩, ⟨b0, bl, br⟩⟩, hk => by
    simp only [inorder, List.mem_append, List.mem_cons] at hk
    rcases lt_trichotomy k nk with h | h | h
    · have hkl : k ∈ inorder l := by
        rcases hk with h1 | h1 | h1
        · exact h1
        · omega
        · have := b2 k h1; omega
      have ih := ins_mem l k ⟨b3, hl, bl⟩ hkl
      simp [ins, h, ih, rebalance_noRot nk l r k b0.1 b0.2, e]
    · simp [ins, h]
    · have hkr : k ∈ inorder r := by
        rcases hk with h1 | h1 | h1
        · have := b1 k h1; omega
        · omega
        · exact h1
      have ih := ins_mem r k ⟨b4, hr, br⟩ hkr
      have h1 : ¬ k < nk := by omega
      simp [ins, h, h1, ih, rebalance_noRot nk l r k b0.1 b0.2, e]

theorem inv_nil : Inv nil := ⟨trivial, trivial, trivial⟩

/-- The loop of `main` started from a tree that satisfies the invariants. -/
theorem insAll_spec : ∀ (ks : List Int) (t : N), Inv t →
    ∃ t1, insAll (some t) ks = some t1 ∧ Inv t1 ∧
      ∀ x, x ∈ inorder t1 ↔ x ∈ inorder t ∨ x ∈ ks
  | [], t, h => ⟨t, rfl, h, by simp⟩
  | k :: ks, t, h => by
    obtain ⟨t1, h1, h2, h3, _⟩ := ins_spec t k h
    obtain ⟨t2, g1, g2, g3⟩ := insAll_spec ks t1 h2
    refine ⟨t2, ?_, g2, ?_⟩
    · simp [insAll, h1, g1]
    · intro x
      rw [g3, h3 x, List.mem_cons]
      exact ⟨by rintro ((h | h) | h) <;> simp [h], by rintro (h | h | h) <;> simp [h]⟩

theorem build_spec (ks : List Int) :
    ∃ t, build ks = some t ∧ Inv t ∧ ∀ x, x ∈ inorder t ↔ x ∈ ks := by
  obtain ⟨t, h1, h2, h3⟩ := insAll_spec ks nil inv_nil
  exact ⟨t, h1, h2, by simpa [inorder] using h3⟩

theorem insAll_append : ∀ (s1 s2 : List Int) (t : Option N),
    insAll t (s1 ++ s2) = insAll (insAll t s1) s2
  | [], _, _ => rfl
  | k :: s1, s2, t => by simp [insAll, insAll_append s1 s2]

theorem insAll_none : ∀ ks : List Int, insAll none ks = none
  | [] => rfl
  | _ :: ks => by simp [insAll, insAll_none ks]

theorem pre_perm_inorder : ∀ t : N, (pre t).Perm (inorder t)
  | nil => List.Perm.refl _
  | node k h l r => by
    simp only [pre, inorder]
    exact ((pre_perm_inorder l).append (pre_perm_inorder r)).cons k |>.trans
      List.perm_middle.symm

theorem inorder_nodup (t : N) (h : BST t) : (inorder t).Nodup :=
  ((bst_iff t).1 h).imp (fun h => ne_of_lt h)

theorem size_eq_length : ∀ t : N, size t = (inorder t).length
  | nil => rfl
  | node k h l r => by
    simp only [size, inorder, List.length_append, List.length_cons, size_eq_length l,
      size_eq_length r]
    omega

/-! ## Insertion keeps the invariants -/

/-- C1: if a tree satisfies BST order, height correctness and balance, then
for every key `ins` returns a tree that satisfies the three invariants again;
hence the tree built from the empty tree by any finite sequence of insertions
satisfies them after each insertion (after every prefix of the sequence). -/
theorem ins_preserves_invariants :
    (∀ (t : N) (k : Int), BST t ∧ HeightOK t ∧ Balanced t →
      ∃ t1, ins t k = some t1 ∧ BST t1 ∧ HeightOK t1 ∧ Balanced t1) ∧
    (∀ (ks : List Int) (n : Nat),
      ∃ t, build (ks.take n) = some t ∧ BST t ∧ HeightOK t ∧ Balanced t) := by
  constructor
  · intro t k h
    obtain ⟨t1, h1, h2, _⟩ := ins_spec t k h
    exact ⟨t1, h1, h2⟩
  · intro ks n
    obtain ⟨t, h1, h2, _⟩ := build_spec (ks.take n)
    exact ⟨t, h1, h2⟩

/-- Witness of C1: inserting 30 into the tree built from 10, 20. -/
theorem ins_preserves_invariants_witness :
    (BST (node 10 2 nil (node 20 1 nil nil)) ∧ HeightOK (node 10 2 nil (node 20 1 nil nil)) ∧
      Balanced (node 10 2 nil (node 20 1 nil nil))) ∧
    ∃ t1, ins (node 10 2 nil (node 20 1 nil nil)) 30 = some t1 ∧
      BST t1 ∧ HeightOK t1 ∧ Balanced t1 :=
  ⟨by decide, ins_preserves_invariants.1 (node 10 2 nil (node 20 1 nil nil)) 30 (by decide)⟩

/-- C2: if a tree satisfies the invariants and `k` is the key of one of its
nodes, `ins` returns the very same tree: same shape, keys and height fields. -/
theorem ins_existing_key (t : N) (k : Int)
    (h : BST t ∧ HeightOK t ∧ Balanced t) (hk : k ∈ pre t) : ins t k = some t :=
  ins_mem t k h ((pre_perm_inorder t).mem_iff.1 hk)

/-- Witness of C2: inserting 25 again into the tree of the reference run. -/
theorem ins_existing_key_witness :
    ins (node 30 3 (node 20 2 (node 10 1 nil nil) (node 25 1 nil nil))
        (node 40 2 nil (node 50 1 nil nil))) 25
      = some (node 30 3 (node 20 2 (node 10 1 nil nil) (node 25 1 nil nil))
        (node 40 2 nil (node 50 1 nil nil))) :=
  ins_existing_key _ 25 (by decide) (by decide)

/-- C3: for every sequence of keys the tree built by `ins` exists, and its
pre-order traversal, sorted ascending, is the sorted list of the distinct keys
of the sequence; that list is strictly ascending, the traversal holds exactly
the keys of the sequence, and no key twice. -/
theorem pre_sorted_eq_distinct_keys (ks : List Int) :
    ∃ t, build ks = some t ∧
      (pre t).insertionSort (· ≤ ·) = (ks.dedup).insertionSort (· ≤ ·) ∧
      List.Sorted (· < ·) ((pre t).insertionSort (· ≤ ·)) ∧
      (∀ x, x ∈ pre t ↔ x ∈ ks) ∧ (pre t).Nodup := by
  obtain ⟨t, h1, h2, h3⟩ := build_spec ks
  have hp := pre_perm_inorder t
  have hnd : (pre t).Nodup := hp.nodup_iff.2 (inorder_nodup t h2.1)
  have hmem : ∀ x, x ∈ pre t ↔ x ∈ ks := fun x => hp.mem_iff.trans (h3 x)
  have hperm : (pre t).Perm ks.dedup :=
    (List.perm_ext_iff_of_nodup hnd (List.nodup_dedup ks)).2
      (fun x => (hmem x).trans List.mem_dedup.symm)
  have hs := List.sorted_insertionSort (· ≤ ·) (pre t)
  refine ⟨t, h1, ?_, ?_, hmem, hnd⟩
  · exact List.eq_of_perm_of_sorted
      (((List.perm_insertionSort (· ≤ ·) (pre t)).trans hperm).trans
        (List.perm_insertionSort (· ≤ ·) ks.dedup).symm)
      hs (List.sorted_insertionSort (· ≤ ·) ks.dedup)
  · exact hs.lt_of_le ((List.perm_insertionSort (· ≤ ·) (pre t)).nodup_iff.2 hnd)

/-- C5: for every sequence `s` and key `k`, the tree `t` built from `s` exists,
`ins t k` returns a tree `t1`, inserting `k` into `t1` again returns `t1`
itself, and so the runs `s, k, k` and `s, k` build the same tree. -/
theorem ins_twice_eq_once (s : List Int) (k : Int) :
    ∃ t t1, build s = some t ∧ ins t k = some t1 ∧ ins t1 k = some t1 ∧
      build (s ++ [k]) = some t1 ∧ build (s ++ [k, k]) = some t1 := by
  obtain ⟨t, h1, h2, _⟩ := build_spec s
  obtain ⟨t1, g1, g2, g3, _⟩ := ins_spec t k h2
  have g4 : ins t1 k = some t1 := ins_mem t1 k g2 ((g3 k).2 (Or.inl rfl))
  refine ⟨t, t1, h1, g1, g4, ?_, ?_⟩
  · simp [build, insAll_append, insAll, g1] at h1 ⊢
    simp [h1, g1]
  · simp [build, insAll_append, insAll, g1] at h1 ⊢
    simp [h1, g1, g4]

/-! ## The reference runs -/

/-- C6: the run of `main` on 10, 20, 30, 40, 50, 25 builds a tree with
pre-order 30 20 10 25 40 50; after 10, 20, 30 the root key is 20 and the
pre-order is 20 10 30, and that tree is the result of one left rotation at
the node 10 (the recursive call below it returns its node unrotated). -/
theorem reference_run :
    (build vals).map pre = some [30, 20, 10, 25, 40, 50] ∧
    (build [10, 20, 30]).bind key = some 20 ∧
    (build [10, 20, 30]).map pre = some [20, 10, 30] ∧
    build [10, 20] = some (node 10 2 nil (node 20 1 nil nil)) ∧
    ins (node 20 1 nil nil) 30 = some (node 20 2 nil (node 30 1 nil nil)) ∧
    getBal (node 10 3 nil (node 20 2 nil (node 30 1 nil nil))) = -2 ∧
    rebalance 10 nil (node 20 2 nil (node 30 1 nil nil)) 30
      = lRot (node 10 3 nil (node 20 2 nil (node 30 1 nil nil))) ∧
    build [10, 20, 30] = lRot (node 10 3 nil (node 20 2 nil (node 30 1 nil nil))) := by
  decide

/-- C7: the four orders 30,20,10 and 10,20,30 and 30,10,20 and 10,30,20 all
build the tree with root 20 of height 2 and the leaves 10 and 30 of height 1. -/
theorem four_rotation_cases :
    build [30, 20, 10] = some (node 20 2 (node 10 1 nil nil) (node 30 1 nil nil)) ∧
    build [10, 20, 30] = some (node 20 2 (node 10 1 nil nil) (node 30 1 nil nil)) ∧
    build [30, 10, 20] = some (node 20 2 (node 10 1 nil nil) (node 30 1 nil nil)) ∧
    build [10, 30, 20] = some (node 20 2 (node 10 1 nil nil) (node 30 1 nil nil)) := by
  decide

/-! ## No read through an absent child -/

/-- C8: on a tree that satisfies the invariants `ins` never reads a field of
an absent child: in the embedding, where each such read gives `none`, the
result is `some` tree. -/
theorem ins_reads_no_absent_child (t : N) (k : Int)
    (h : BST t ∧ HeightOK t ∧ Balanced t) : (ins t k).isSome = true := by
  obtain ⟨t1, h1, _⟩ := ins_spec t k h
  simp [h1]

/-- Witness of C8: the Left-Right case, 20 inserted below 30 and 10. -/
theorem ins_reads_no_absent_child_witness :
    (ins (node 30 2 (node 10 1 nil nil) nil) 20).isSome = true :=
  ins_reads_no_absent_child (node 30 2 (node 10 1 nil nil) nil) 20 (by decide)

/-! ## The rotations -/

/-- C9: on a node with BST order whose left child is present `rRot` returns a
tree with BST order and the same keys from left to right; on a node with BST
order whose right child is present `lRot` does the same. -/
theorem rotations_keep_bst_order (ky hy kx hx : Int) (A T2 C : N) :
    (BST (node ky hy (node kx hx A T2) C) →
      ∃ t, rRot (node ky hy (node kx hx A T2) C) = some t ∧ BST t ∧
        inorder t = inorder (node ky hy (node kx hx A T2) C)) ∧
    (BST (node kx hx A (node ky hy T2 C)) →
      ∃ t, lRot (node kx hx A (node ky hy T2 C)) = some t ∧ BST t ∧
        inorder t = inorder (node kx hx A (node ky hy T2 C))) := by
  constructor
  · intro h
    have e : inorder (node kx (max (ht A) (ht (node ky (max (ht T2) (ht C) + 1) T2 C)) + 1) A
        (node ky (max (ht T2) (ht C) + 1) T2 C))
        = inorder (node ky hy (node kx hx A T2) C) := by
      simp [inorder]
    exact ⟨_, rfl, (bst_iff _).2 (e ▸ (bst_iff _).1 h), e⟩
  · intro h
    have e : inorder (node ky (max (ht (node kx (max (ht A) (ht T2) + 1) A T2)) (ht C) + 1)
        (node kx (max (ht A) (ht T2) + 1) A T2) C)
        = inorder (node kx hx A (node ky hy T2 C)) := by
      simp [inorder]
    exact ⟨_, rfl, (bst_iff _).2 (e ▸ (bst_iff _).1 h), e⟩

/-- Witness of C9: the rotations of the two three-node chains. -/
theorem rotations_keep_bst_order_witness :
    (∃ t, rRot (node 30 3 (node 20 2 (node 10 1 nil nil) nil) nil) = some t ∧ BST t ∧
        inorder t = inorder (node 30 3 (node 20 2 (node 10 1 nil nil) nil) nil)) ∧
    (∃ t, lRot (node 10 3 nil (node 20 2 nil (node 30 1 nil nil))) = some t ∧ BST t ∧
        inorder t = inorder (node 10 3 nil (node 20 2 nil (node 30 1 nil nil)))) :=
  ⟨(rotations_keep_bst_order 30 3 20 2 (node 10 1 nil nil) nil nil).1 (by decide),
    (rotations_keep_bst_order 20 2 10 3 nil nil (node 30 1 nil nil)).2 (by decide)⟩

/-- Inside the range of `int` nothing wraps around. -/
theorem wrap32_eq (x : Int) (h : int32 x) : wrap32 x = x := by
  unfold wrap32
  unfold int32 at h
  omega

/-- C10 as stated fails on the 32-bit code: with a right subtree whose height
field is `INT_MAX` the sum `max(ht(T2), ht(C)) + 1` wraps around, and `rRot`
stores -2147483648 in the demoted node, not `1 + max(ht(T2), ht(C))`; the
same happens in `lRot` with such a left subtree. -/
theorem rotation_result_counterexample :
    rRot32 (node 30 2 (node 20 1 nil nil) (node 40 2147483647 nil nil))
      = some (node 20 1 nil (node 30 (-2147483648) nil (node 40 2147483647 nil nil))) ∧
    rRot32 (node 30 2 (node 20 1 nil nil) (node 40 2147483647 nil nil))
      ≠ some (node 20 (1 + max (ht nil) (1 + max (ht nil) (ht (node 40 2147483647 nil nil))))
          nil (node 30 (1 + max (ht nil) (ht (node 40 2147483647 nil nil))) nil
            (node 40 2147483647 nil nil))) ∧
    1 + max (ht nil) (ht (node 40 2147483647 nil nil)) = 2147483648 ∧
    lRot32 (node 20 2 (node 10 2147483647 nil nil) (node 30 1 nil nil))
      = some (node 30 1 (node 20 (-2147483648) (node 10 2147483647 nil nil) nil) nil) ∧
    lRot32 (node 20 2 (node 10 2147483647 nil nil) (node 30 1 nil nil))
      ≠ some (node 30 (1 + max (1 + max (ht (node 10 2147483647 nil nil)) (ht nil)) (ht nil))
          (node 20 (1 + max (ht (node 10 2147483647 nil nil)) (ht nil))
            (node 10 2147483647 nil nil) nil) nil) := by
  decide

/-- The equations of `rRot` and `lRot` in the embedding over `Int`. -/
theorem rot_node (ky hy kx hx : Int) (A T2 C : N) :
    rRot (node ky hy (node kx hx A T2) C)
      = some (node kx (1 + max (ht A) (1 + max (ht T2) (ht C))) A
          (node ky (1 + max (ht T2) (ht C)) T2 C)) ∧
    lRot (node kx hx A (node ky hy T2 C))
      = some (node ky (1 + max (1 + max (ht A) (ht T2)) (ht C))
          (node kx (1 + max (ht A) (ht T2)) A T2) C) :=
  ⟨by simp only [rRot, ht_node, Int.add_comm], by simp only [lRot, ht_node, Int.add_comm]⟩

/-- C10, amended: let the height fields of `A`, `T2`, `C` be values of `int`.
If the new height `1 + max(ht(A), 1 + max(ht(T2), ht(C)))` is a value of `int`
(no overflow), `rRot` of the node `ky` with right subtree `C` and left child
`kx` with subtrees `A`, `T2` is the node `kx` with left subtree `A` and right
child `ky` with subtrees `T2`, `C`; the demoted node gets the height
`1 + max(ht(T2), ht(C))`, the promoted one `1 + max(ht(A), that height)`, and
`A`, `T2`, `C` are kept as they are.  `lRot` is the mirror image, under the
mirrored condition.  If moreover `A`, `T2`, `C` are height-correct so is the
rotated tree, whatever the old height fields `hx`, `hy` of the two rotated
nodes were.  Under these conditions the 32-bit rotations agree with `rRot` and
`lRot`. -/
theorem rotation_result (ky hy kx hx : Int) (A T2 C : N)
    (hA : int32 (ht A)) (hT : int32 (ht T2)) (hC : int32 (ht C)) :
    (int32 (1 + max (ht A) (1 + max (ht T2) (ht C))) →
      rRot32 (node ky hy (node kx hx A T2) C)
        = some (node kx (1 + max (ht A) (1 + max (ht T2) (ht C))) A
            (node ky (1 + max (ht T2) (ht C)) T2 C)) ∧
      rRot32 (node ky hy (node kx hx A T2) C) = rRot (node ky hy (node kx hx A T2) C)) ∧
    (int32 (1 + max (1 + max (ht A) (ht T2)) (ht C)) →
      lRot32 (node kx hx A (node ky hy T2 C))
        = some (node ky (1 + max (1 + max (ht A) (ht T2)) (ht C))
            (node kx (1 + max (ht A) (ht T2)) A T2) C) ∧
      lRot32 (node kx hx A (node ky hy T2 C)) = lRot (node kx hx A (node ky hy T2 C))) ∧
    (HeightOK A → HeightOK T2 → HeightOK C →
      (int32 (1 + max (ht A) (1 + max (ht T2) (ht C))) →
        ∃ t, rRot32 (node ky hy (node kx hx A T2) C) = some t ∧ HeightOK t) ∧
      (int32 (1 + max (1 + max (ht A) (ht T2)) (ht C)) →
        ∃ t, lRot32 (node kx hx A (node ky hy T2 C)) = some t ∧ HeightOK t)) := by
  have er : int32 (1 + max (ht A) (1 + max (ht T2) (ht C))) →
      rRot32 (node ky hy (node kx hx A T2) C)
        = some (node kx (1 + max (ht A) (1 + max (ht T2) (ht C))) A
            (node ky (1 + max (ht T2) (ht C)) T2 C)) := by
    intro hr
    have i1 : int32 (max (ht T2) (ht C) + 1) := by
      unfold int32 at *
      simp only [max_eq] at *
      omega
    have w1 : wrap32 (max (ht T2) (ht C) + 1) = 1 + max (ht T2) (ht C) := by
      rw [wrap32_eq _ i1, Int.add_comm]
    have i2 : int32 (max (ht A) (1 + max (ht T2) (ht C)) + 1) := by
      rw [Int.add_comm]; exact hr
    have w2 : wrap32 (max (ht A) (1 + max (ht T2) (ht C)) + 1)
        = 1 + max (ht A) (1 + max (ht T2) (ht C)) := by
      rw [wrap32_eq _ i2, Int.add_comm]
    simp only [rRot32, ht_node, w1, w2]
  have el : int32 (1 + max (1 + max (ht A) (ht T2)) (ht C)) →
      lRot32 (node kx hx A (node ky hy T2 C))
        = some (node ky (1 + max (1 + max (ht A) (ht T2)) (ht C))
            (node kx (1 + max (ht A) (ht T2)) A T2) C) := by
    intro hl
    have i1 : int32 (max (ht A) (ht T2) + 1) := by
      unfold int32 at *
      simp only [max_eq] at *
      omega
    have w1 : wrap32 (max (ht A) (ht T2) + 1) = 1 + max (ht A) (ht T2) := by
      rw [wrap32_eq _ i1, Int.add_comm]
    have i2 : int32 (max (1 + max (ht A) (ht T2)) (ht C) + 1) := by
      rw [Int.add_comm]; exact hl
    have w2 : wrap32 (max (1 + max (ht A) (ht T2)) (ht C) + 1)
        = 1 + max (1 + max (ht A) (ht T2)) (ht C) := by
      rw [wrap32_eq _ i2, Int.add_comm]
    simp only [lRot32, ht_node, w1, w2]
  refine ⟨fun hr => ⟨er hr, ?_⟩, fun hl => ⟨el hl, ?_⟩, fun h1 h2 h3 =>
    ⟨fun hr => ⟨_, er hr, ?_⟩, fun hl => ⟨_, el hl, ?_⟩⟩⟩
  · rw [er hr, (rot_node ky hy kx hx A T2 C).1]
  · rw [el hl, (rot_node ky hy kx hx A T2 C).2]
  · exact ⟨rfl, h1, rfl, h2, h3⟩
  · exact ⟨rfl, ⟨rfl, h1, h2⟩, h3⟩

/-- Witness of the amended C10: rotations of nodes whose old height fields
are wrong. -/
theorem rotation_result_witness :
    (rRot32 (node 30 7 (node 20 0 (node 10 1 nil nil) nil) nil)
        = some (node 20 (1 + max (ht (node 10 1 nil nil)) (1 + max (ht nil) (ht nil)))
            (node 10 1 nil nil) (node 30 (1 + max (ht nil) (ht nil)) nil nil)) ∧
      rRot32 (node 30 7 (node 20 0 (node 10 1 nil nil) nil) nil)
        = rRot (node 30 7 (node 20 0 (node 10 1 nil nil) nil) nil)) ∧
    (lRot32 (node 20 0 (node 10 1 nil nil) (node 30 7 nil nil))
        = some (node 30 (1 + max (1 + max (ht (node 10 1 nil nil)) (ht nil)) (ht nil))
            (node 20 (1 + max (ht (node 10 1 nil nil)) (ht nil)) (node 10 1 nil nil) nil) nil) ∧
      lRot32 (node 20 0 (node 10 1 nil nil) (node 30 7 nil nil))
        = lRot (node 20 0 (node 10 1 nil nil) (node 30 7 nil nil))) ∧
    (∃ t, rRot32 (node 30 7 (node 20 0 (node 10 1 nil nil) nil) nil) = some t ∧ HeightOK t) ∧
    (∃ t, lRot32 (node 20 0 (node 10 1 nil nil) (node 30 7 nil nil)) = some t ∧ HeightOK t) :=
  ⟨(rotation_result 30 7 20 0 (node 10 1 nil nil) nil nil (by decide) (by decide)
      (by decide)).1 (by decide),
    (rotation_result 30 7 20 0 (node 10 1 nil nil) nil nil (by decide) (by decide)
      (by decide)).2.1 (by decide),
    ((rotation_result 30 7 20 0 (node 10 1 nil nil) nil nil (by decide) (by decide)
      (by decide)).2.2 (by decide) (by decide) (by decide)).1 (by decide),
    ((rotation_result 30 7 20 0 (node 10 1 nil nil) nil nil (by decide) (by decide)
      (by decide)).2.2 (by decide) (by decide) (by decide)).2 (by decide)⟩

/-! ## The height bound -/

/-- A height-correct balanced tree of height `h` has at least `fib (h + 2) - 1`
nodes. -/
theorem fib_le_size : ∀ t : N, HeightOK t → Balanced t →
    Nat.fib ((ht t).toNat + 2) ≤ size t + 1
  | nil, _, _ => by simp [size]
  | node k h l r, ⟨e, hl, hr⟩, ⟨⟨b1, b2⟩, bl, br⟩ => by
    have i1 := fib_le_size l hl bl
    have i2 := fib_le_size r hr br
    have n1 := ht_nonneg l hl
    have n2 := ht_nonneg r hr
    obtain ⟨a, ha⟩ : ∃ a : ℕ, ht l = a := ⟨(ht l).toNat, (Int.toNat_of_nonneg n1).symm⟩
    obtain ⟨b, hb⟩ : ∃ b : ℕ, ht r = b := ⟨(ht r).toNat, (Int.toNat_of_nonneg n2).symm⟩
    simp only [max_eq] at e
    rw [ha, hb] at e b1 b2
    rw [ha, Int.toNat_ofNat] at i1
    rw [hb, Int.toNat_ofNat] at i2
    simp only [ht_node, size]
    rcases le_total b a with hab | hab
    · have e1 : h.toNat + 2 = (a + 1) + 2 := by omega
      have m : Nat.fib (a + 1) ≤ Nat.fib (b + 2) := Nat.fib_mono (by omega)
      have f : Nat.fib (a + 1 + 2) = Nat.fib (a + 1) + Nat.fib (a + 2) := Nat.fib_add_two
      rw [e1, f]
      omega
    · have e1 : h.toNat + 2 = (b + 1) + 2 := by omega
      have m : Nat.fib (b + 1) ≤ Nat.fib (a + 2) := Nat.fib_mono (by omega)
      have f : Nat.fib (b + 1 + 2) = Nat.fib (b + 1) + Nat.fib (b + 2) := Nat.fib_add_two
      rw [e1, f]
      omega

/-- The tree built from distinct keys has as many nodes as there are keys. -/
theorem build_size (ks : List Int) (hd : ks.Nodup) (t : N) (hb : build ks = some t) :
    size t = ks.length := by
  obtain ⟨t1, h1, h2, h3⟩ := build_spec ks
  have e : t1 = t := Option.some.inj (h1.symm.trans hb)
  subst e
  rw [size_eq_length]
  exact ((List.perm_ext_iff_of_nodup (inorder_nodup t1 h2.1) hd).2 h3).length_eq

/-- Taking a root: from `2 ^ u ≤ x ^ v` to `2 ^ (u / v) ≤ x`. -/
theorem two_rpow_le_of_pow_le (x : ℝ) (hx : 0 ≤ x) (u v : ℕ) (hv : v ≠ 0)
    (h : (2:ℝ) ^ u ≤ x ^ v) : (2:ℝ) ^ ((u:ℝ) / (v:ℝ)) ≤ x := by
  rw [div_eq_mul_inv, Real.rpow_mul (by norm_num), Real.rpow_natCast]
  calc ((2:ℝ) ^ u) ^ ((v:ℝ)⁻¹) ≤ (x ^ v) ^ ((v:ℝ)⁻¹) :=
        Real.rpow_le_rpow (by positivity) h (by positivity)
    _ = x := Real.pow_rpow_inv_natCast hx hv

/-- Taking a root: from `x ^ v < 2 ^ u` to `x < 2 ^ (u / v)`. -/
theorem lt_two_rpow_of_pow_lt (x : ℝ) (hx : 0 ≤ x) (u v : ℕ) (hv : v ≠ 0)
    (h : x ^ v < (2:ℝ) ^ u) : x < (2:ℝ) ^ ((u:ℝ) / (v:ℝ)) := by
  rw [div_eq_mul_inv, Real.rpow_mul (by norm_num), Real.rpow_natCast]
  calc x = (x ^ v) ^ ((v:ℝ)⁻¹) := (Real.pow_rpow_inv_natCast hx hv).symm
    _ < ((2:ℝ) ^ u) ^ ((v:ℝ)⁻¹) :=
        Real.rpow_lt_rpow (by positivity) h (by positivity)

theorem sqrt5_gt : (2.23606 : ℝ) < √5 := by
  rw [show (2.23606 : ℝ) = √(2.23606 ^ 2) from (Real.sqrt_sq (by norm_num)).symm]
  exact Real.sqrt_lt_sqrt (by norm_num) (by norm_num)

theorem gold_gt : (1.618 : ℝ) < goldenRatio := by
  have := sqrt5_gt
  unfold goldenRatio
  linarith

/-- From the closed form of the Fibonacci numbers: `φ ^ m < √5 * (fib m + 1)`. -/
theorem gold_pow_lt (m : ℕ) : goldenRatio ^ m < √5 * ((Nat.fib m : ℝ) + 1) := by
  have h5 : (0:ℝ) < √5 := by positivity
  have hb := Real.coe_fib_eq m
  have hpsi : goldenConj ^ m ≤ 1 := by
    have h1 : |goldenConj| ≤ 1 := abs_le.2 ⟨neg_one_lt_goldConj.le, by linarith [goldConj_neg]⟩
    calc goldenConj ^ m ≤ |goldenConj ^ m| := le_abs_self _
      _ = |goldenConj| ^ m := abs_pow _ _
      _ ≤ 1 := pow_le_one₀ (abs_nonneg _) h1
  rw [eq_div_iff h5.ne'] at hb
  have h3 : (1:ℝ) < √5 := by linarith [sqrt5_gt]
  linarith

theorem two_pow_le_rat_gold : (2:ℝ) ^ 2000 ≤ (1.618:ℝ) ^ 2881 := by norm_num
theorem two_pow_le_rat_coeff : (2:ℝ) ^ 3277 ≤ (1.17081:ℝ) ^ 14405 := by norm_num
theorem pow_611_lt : (611:ℝ) ^ 2000 < (2:ℝ) ^ 18511 := by norm_num

/-- The logarithmic bound that follows from `fib (h + 2) ≤ n + 1`. -/
theorem height_real_bound (h n : ℕ) (hf : Nat.fib (h + 2) ≤ n + 1) :
    (h:ℝ) ≤ 1.4405 * Real.logb 2 ((n:ℝ) + 2) - 0.3277 := by
  have h5 : (0:ℝ) < √5 := by positivity
  have hg := gold_gt
  have hs := sqrt5_gt
  have hA : (2:ℝ) ^ ((2000:ℝ) / 2881) ≤ goldenRatio := by
    have := two_rpow_le_of_pow_le goldenRatio gold_pos.le 2000 2881 (by norm_num)
      (two_pow_le_rat_gold.trans (pow_le_pow_left₀ (by norm_num) hg.le _))
    simpa using this
  have hB : (2:ℝ) ^ ((3277:ℝ) / 14405) ≤ goldenRatio ^ 2 / √5 := by
    have h1 : (1.17081:ℝ) ≤ goldenRatio ^ 2 / √5 := by
      rw [le_div_iff₀ h5, gold_sq]
      unfold goldenRatio
      nlinarith [Real.sq_sqrt (show (0:ℝ) ≤ 5 by norm_num)]
    have := two_rpow_le_of_pow_le _ (by positivity) 3277 14405 (by norm_num)
      (two_pow_le_rat_coeff.trans (pow_le_pow_left₀ (by norm_num) h1 _))
    simpa using this
  have hfib : ((Nat.fib (h + 2) : ℝ)) ≤ (n:ℝ) + 1 := by exact_mod_cast hf
  have hpow := gold_pow_lt (h + 2)
  have key : (2:ℝ) ^ (((h:ℝ) + 0.3277) / 1.4405) ≤ (n:ℝ) + 2 := by
    have e : ((h:ℝ) + 0.3277) / 1.4405 = (2000:ℝ) / 2881 * (h:ℝ) + (3277:ℝ) / 14405 := by
      ring
    rw [e, Real.rpow_add (by norm_num), Real.rpow_mul_natCast (by norm_num)]
    have h1 : ((2:ℝ) ^ ((2000:ℝ) / 2881)) ^ h ≤ goldenRatio ^ h :=
      pow_le_pow_left₀ (by positivity) hA h
    have h2 : ((2:ℝ) ^ ((2000:ℝ) / 2881)) ^ h * (2:ℝ) ^ ((3277:ℝ) / 14405)
        ≤ goldenRatio ^ h * (goldenRatio ^ 2 / √5) :=
      mul_le_mul h1 hB (by positivity) (by positivity)
    have h3 : goldenRatio ^ h * (goldenRatio ^ 2 / √5) = goldenRatio ^ (h + 2) / √5 := by
      rw [pow_add]; ring
    have h4 : goldenRatio ^ (h + 2) / √5 < (n:ℝ) + 2 := by
      rw [div_lt_iff₀ h5]
      nlinarith
    linarith
  have hn : (0:ℝ) < (n:ℝ) + 2 := by positivity
  have := (Real.le_logb_iff_rpow_le (by norm_num : (1:ℝ) < 2) hn).2 key
  rw [div_le_iff₀ (by norm_num)] at this
  linarith

/-- The inequality of the stated bound fails for height 13 and 609 keys. -/
theorem bound_fails_609 : ¬ ((13:ℝ) ≤ 1.44 * Real.logb 2 ((609:ℝ) + 2) - 0.328) := by
  have h1 : Real.logb 2 ((609:ℝ) + 2) < (18511:ℝ) / 2000 := by
    rw [Real.logb_lt_iff_lt_rpow (by norm_num) (by norm_num)]
    have := lt_two_rpow_of_pow_lt 611 (by norm_num) 18511 2000 (by norm_num) pow_611_lt
    norm_num at this ⊢
    exact this
  intro h
  linarith

theorem two_pow_le_fib_pow : ∀ h : ℕ, h ≤ 12 → 2 ^ (1000 * h + 328) ≤ (Nat.fib (h + 2) + 1) ^ 1440 := by
  decide!

/-- With at most 608 keys the bound with the constants 1.44 and 0.328 holds. -/
theorem small_height_bound (h n : ℕ) (hn : n ≤ 608) (hf : Nat.fib (h + 2) ≤ n + 1) :
    (h:ℝ) ≤ 1.44 * Real.logb 2 ((n:ℝ) + 2) - 0.328 := by
  have h12 : h ≤ 12 := by
    by_contra hc
    have h1 : Nat.fib 15 ≤ Nat.fib (h + 2) := Nat.fib_mono (by omega)
    have h2 : Nat.fib 15 = 610 := by decide
    omega
  have hx : ((Nat.fib (h + 2) + 1 : ℕ) : ℝ) ≤ (n:ℝ) + 2 := by
    have : Nat.fib (h + 2) + 1 ≤ n + 2 := by omega
    exact_mod_cast this
  have hd : (2:ℝ) ^ (1000 * h + 328) ≤ ((Nat.fib (h + 2) + 1 : ℕ) : ℝ) ^ 1440 := by
    exact_mod_cast two_pow_le_fib_pow h h12
  have key := two_rpow_le_of_pow_le _ (by positivity) (1000 * h + 328) 1440 (by norm_num) hd
  have hn0 : (0:ℝ) < (n:ℝ) + 2 := by positivity
  have := (Real.le_logb_iff_rpow_le (by norm_num : (1:ℝ) < 2) hn0).2 (key.trans hx)
  rw [div_le_iff₀ (by norm_num)] at this
  push_cast at this
  linarith

/-- The run of `main` on `keys609`: height 13 with 609 nodes. -/
theorem keys609_run :
    (build keys609).map (fun t => (ht t, size t)) = some (13, 609) := by
  decide!

/-- C4 as stated fails: the 609 distinct keys of `keys609` build a tree of
height 13, and 13 is larger than `1.44 * log2(609 + 2) - 0.328`. -/
theorem height_bound_counterexample :
    keys609.Nodup ∧ 1 ≤ keys609.length ∧
    ∃ t, build keys609 = some t ∧ ht t = 13 ∧
      ¬ ((ht t : ℝ) ≤ 1.44 * Real.logb 2 ((keys609.length : ℝ) + 2) - 0.328) := by
  obtain ⟨t, h1, h2, h3⟩ := build_spec keys609
  have hr := keys609_run
  rw [h1] at hr
  simp only [Option.map_some', Option.some.injEq, Prod.mk.injEq] at hr
  obtain ⟨hh, hs⟩ := hr
  have hlen : keys609.length = 609 := by decide!
  have hnd : keys609.Nodup := by
    have hp : (inorder t).Perm keys609.dedup :=
      (List.perm_ext_iff_of_nodup (inorder_nodup t h2.1) (List.nodup_dedup _)).2
        (fun x => (h3 x).trans List.mem_dedup.symm)
    have hl : keys609.dedup.length = keys609.length := by
      rw [← hp.length_eq, ← size_eq_length, hs, hlen]
    have he := (List.dedup_sublist keys609).eq_of_length hl
    rw [← he]
    exact List.nodup_dedup _
  refine ⟨hnd, by omega, t, h1, hh, ?_⟩
  rw [hh, hlen]
  have := bound_fails_609
  norm_num at this ⊢
  exact this

/-- C4, amended: for every sequence of `n` distinct keys the tree built by
`ins` exists and its height is at most `1.4405 * log2(n + 2) - 0.3277` over
the reals; and for `n <= 608` it is at most `1.44 * log2(n + 2) - 0.328`. -/
theorem height_bound (ks : List Int) (hd : ks.Nodup) :
    ∃ t, build ks = some t ∧
      (ht t : ℝ) ≤ 1.4405 * Real.logb 2 ((ks.length : ℝ) + 2) - 0.3277 ∧
      (ks.length ≤ 608 →
        (ht t : ℝ) ≤ 1.44 * Real.logb 2 ((ks.length : ℝ) + 2) - 0.328) := by
  obtain ⟨t, h1, h2, _⟩ := build_spec ks
  have hf := fib_le_size t h2.2.1 h2.2.2
  rw [build_size ks hd t h1] at hf
  have e : ht t = ((ht t).toNat : ℤ) := (Int.toNat_of_nonneg (ht_nonneg t h2.2.1)).symm
  have e1 : (ht t : ℝ) = (((ht t).toNat : ℕ) : ℝ) := by
    have e2 := congrArg (fun z : ℤ => (z : ℝ)) e
    simpa only [Int.cast_natCast] using e2
  refine ⟨t, h1, ?_, ?_⟩
  · rw [e1]
    exact height_real_bound _ _ hf
  · intro h608
    rw [e1]
    exact small_height_bound _ _ h608 hf

/-- Witness of the amended C4: the three keys 10, 20, 30. -/
theorem height_bound_witness :
    ([10, 20, 30] : List Int).Nodup ∧
    ∃ t, build [10, 20, 30] = some t ∧
      (ht t : ℝ) ≤ 1.4405 * Real.logb 2 ((([10, 20, 30] : List Int).length : ℝ) + 2) - 0.3277 ∧
      (([10, 20, 30] : List Int).length ≤ 608 →
        (ht t : ℝ) ≤ 1.44 * Real.logb 2 ((([10, 20, 30] : List Int).length : ℝ) + 2) - 0.328) :=
  ⟨by decide, height_bound [10, 20, 30] (by decide)⟩

/-! ## The first insertion -/

/-- C11: for every key `k`, `ins` on the empty (absent) tree returns the single
node with key `k`, height field 1 and both children absent, the node made by
`new`. -/
theorem ins_empty (k : Int) :
    ins nil k = some (node k 1 nil nil) ∧ new k = node k 1 nil nil ∧
      (ins nil k).bind key = some k ∧ (ins nil k).map ht = some 1 :=
  ⟨rfl, rfl, rfl, rfl⟩

/-! ## Heights after an insertion -/

/-- C13: on a tree that satisfies the invariants `ins` returns a tree whose
height is the old height or the old height plus one, and it is the old height
when the key is already stored in the tree. -/
theorem ins_height (t : N) (k : Int) (h : BST t ∧ HeightOK t ∧ Balanced t) :
    ∃ t1, ins t k = some t1 ∧ (ht t1 = ht t ∨ ht t1 = ht t + 1) ∧
      (k ∈ pre t → ht t1 = ht t) := by
  obtain ⟨t1, h1, _, _, h4⟩ := ins_spec t k h
  refine ⟨t1, h1, ?_, ?_⟩
  · rcases h4 with h4 | ⟨h4, _⟩
    · exact Or.inl h4
    · exact Or.inr h4
  · intro hk
    have := ins_mem t k h ((pre_perm_inorder t).mem_iff.1 hk)
    rw [h1] at this
    rw [Option.some.inj this]

/-- Witness of C13: 30 inserted into the tree built from 10, 20. -/
theorem ins_height_witness :
    ∃ t1, ins (node 10 2 nil (node 20 1 nil nil)) 30 = some t1 ∧
      (ht t1 = ht (node 10 2 nil (node 20 1 nil nil)) ∨
        ht t1 = ht (node 10 2 nil (node 20 1 nil nil)) + 1) ∧
      (30 ∈ pre (node 10 2 nil (node 20 1 nil nil)) →
        ht t1 = ht (node 10 2 nil (node 20 1 nil nil))) :=
  ins_height (node 10 2 nil (node 20 1 nil nil)) 30 (by decide)

/-! ## Size and height -/

/-- C15: for every sequence of keys the tree built by `ins` exists, and with
`n` its number of nodes and `h` its height (the `h` field of the root, 0 for
the empty tree) `n + 1 >= fib (h + 2)`. -/
theorem size_ge_fib (ks : List Int) :
    ∃ t, build ks = some t ∧ 0 ≤ ht t ∧ size t + 1 ≥ Nat.fib ((ht t).toNat + 2) := by
  obtain ⟨t, h1, h2, _⟩ := build_spec ks
  exact ⟨t, h1, ht_nonneg t h2.2.1, fib_le_size t h2.2.1 h2.2.2⟩

/-! ## The rotations undo each other -/

/-- C16: on a height-correct node whose left child is present `lRot` after
`rRot` gives the node back, with the same shape, keys and height fields; on a
height-correct node whose right child is present `rRot` after `lRot` does. -/
theorem rotations_inverse (ky hy kx hx : Int) (A T2 C : N) :
    (HeightOK (node ky hy (node kx hx A T2) C) →
      (rRot (node ky hy (node kx hx A T2) C)).bind lRot
        = some (node ky hy (node kx hx A T2) C)) ∧
    (HeightOK (node kx hx A (node ky hy T2 C)) →
      (lRot (node kx hx A (node ky hy T2 C))).bind rRot
        = some (node kx hx A (node ky hy T2 C))) := by
  constructor
  · rintro ⟨e1, ⟨e2, _, _⟩, _⟩
    simp only [ht_node] at e1
    simp only [rRot, lRot, Option.some_bind, ht_node]
    rw [e1, e2, Int.add_comm 1, Int.add_comm 1]
  · rintro ⟨e1, _, ⟨e2, _, _⟩⟩
    simp only [ht_node] at e1
    simp only [rRot, lRot, Option.some_bind, ht_node]
    rw [e1, e2, Int.add_comm 1, Int.add_comm 1]

/-- Witness of C16: the two three-node chains. -/
theorem rotations_inverse_witness :
    (rRot (node 30 3 (node 20 2 (node 10 1 nil nil) nil) nil)).bind lRot
        = some (node 30 3 (node 20 2 (node 10 1 nil nil) nil) nil) ∧
    (lRot (node 10 3 nil (node 20 2 nil (node 30 1 nil nil)))).bind rRot
        = some (node 10 3 nil (node 20 2 nil (node 30 1 nil nil))) :=
  ⟨(rotations_inverse 30 3 20 2 (node 10 1 nil nil) nil nil).1 (by decide),
    (rotations_inverse 20 2 10 3 nil nil (node 30 1 nil nil)).2 (by decide)⟩

/-! ## The choice of the rotation case -/

/-- A tree of height at least 2 that an insertion of `k` has made taller has a
root whose key differs from `k`. -/
theorem grow_key (t : N) (k : Int) (hh : HeightOK t) (hg : Grow t k) (h2 : 2 ≤ ht t) :
    ∃ tk, key t = some tk ∧ (k < tk ∨ tk < k) := by
  cases t with
  | nil => exact absurd hg (by simp [Grow])
  | node tk th A B =>
    refine ⟨tk, rfl, ?_⟩
    rcases hg with ⟨_, rfl, rfl⟩ | ⟨g, _⟩ | ⟨g, _⟩
    · have e := hh.1
      simp only [ht_nil, max_eq] at e
      simp only [ht_node] at h2
      omega
    · exact Or.inl g
    · exact Or.inr g

/-- The four tests on a node whose left side is two higher. -/
theorem cases4_left (nk h : Int) (l r : N) (k lk : Int) (hb : 1 < ht l - ht r)
    (hl : key l = some lk) (hk : k < lk ∨ lk < k) :
    (cases4 (node nk h l r) k).count (some true) = 1 ∧
      (cases4 (node nk h l r) k).count (some false) = 3 := by
  have a : ¬ (ht l - ht r < -1) := by omega
  rcases hk with hk | hk
  · have b : ¬ (lk < k) := by omega
    simp [cases4, caseLL, caseRR, caseLR, caseRL, hb, a, hl, hk, b]
  · have b : ¬ (k < lk) := by omega
    simp [cases4, caseLL, caseRR, caseLR, caseRL, hb, a, hl, hk, b]

/-- The four tests on a node whose right side is two higher. -/
theorem cases4_right (nk h : Int) (l r : N) (k rk : Int) (hb : ht l - ht r < -1)
    (hr : key r = some rk) (hk : k < rk ∨ rk < k) :
    (cases4 (node nk h l r) k).count (some true) = 1 ∧
      (cases4 (node nk h l r) k).count (some false) = 3 := by
  have a : ¬ (1 < ht l - ht r) := by omega
  rcases hk with hk | hk
  · have b : ¬ (rk < k) := by omega
    simp [cases4, caseLL, caseRR, caseLR, caseRL, hb, a, hr, hk, b]
  · have b : ¬ (k < rk) := by omega
    simp [cases4, caseLL, caseRR, caseLR, caseRL, hb, a, hr, hk, b]

/-- The four tests on a node whose sides differ by at most one. -/
theorem cases4_none (nk h : Int) (l r : N) (k : Int) (h1 : ht l - ht r ≤ 1)
    (h2 : -1 ≤ ht l - ht r) :
    cases4 (node nk h l r) k = [some false, some false, some false, some false] := by
  have a : ¬ (1 < ht l - ht r) := by omega
  have b : ¬ (ht l - ht r < -1) := by omega
  simp [cases4, caseLL, caseRR, caseLR, caseRL, a, b]

/-- Lines 41 to 48 of `ins` are the four tests tried in order. -/
theorem rebalance_eq_cases (nk : Int) (l r : N) (k : Int) :
    rebalance nk l r k =
      (caseLL (node nk (1 + max (ht l) (ht r)) l r) k).bind (fun c1 =>
        if c1 then rRot (node nk (1 + max (ht l) (ht r)) l r) else
        (caseRR (node nk (1 + max (ht l) (ht r)) l r) k).bind (fun c2 =>
          if c2 then lRot (node nk (1 + max (ht l) (ht r)) l r) else
          (caseLR (node nk (1 + max (ht l) (ht r)) l r) k).bind (fun c3 =>
            if c3 then (lRot l).bind (fun l1 => rRot (node nk (1 + max (ht l) (ht r)) l1 r)) else
            (caseRL (node nk (1 + max (ht l) (ht r)) l r) k).bind (fun c4 =>
              if c4 then
                (rRot r).bind (fun r1 => lRot (node nk (1 + max (ht l) (ht r)) l r1))
              else some (node nk (1 + max (ht l) (ht r)) l r))))) := by
  simp only [rebalance, caseLL, caseRR, caseLR, caseRL]
  by_cases h1 : getBal (node nk (1 + max (ht l) (ht r)) l r) > 1 <;>
    by_cases h2 : getBal (node nk (1 + max (ht l) (ht r)) l r) < -1 <;>
    simp only [h1, h2, if_true, if_false] <;> rfl

/-- C12: for a node `n` whose subtree satisfies the invariants and a key `k`
other than the key of `n`, the node `n'` of steps 2 and 3 exists; its balance
factor lies between -2 and 2; if it is 2 the left child is present with a key
other than `k`, if it is -2 the right child is; when the balance factor is
outside [-1, 1] exactly one of the four tests is true and the other three are
false, and when it is inside all four are false and `ins` returns `n'`.  In
every case `ins` continues with lines 41 to 48 on `n'`. -/
theorem balance_cases (nk nh : Int) (l r : N) (k : Int)
    (h : BST (node nk nh l r) ∧ HeightOK (node nk nh l r) ∧ Balanced (node nk nh l r))
    (hk : k ≠ nk) :
    ∃ n1 l1 r1, n1 = node nk (1 + max (ht l1) (ht r1)) l1 r1 ∧
      descend (node nk nh l r) k = some n1 ∧
      ins (node nk nh l r) k = rebalance nk l1 r1 k ∧
      (-2 ≤ getBal n1 ∧ getBal n1 ≤ 2) ∧
      (getBal n1 = 2 → ∃ lk, key l1 = some lk ∧ k ≠ lk) ∧
      (getBal n1 = -2 → ∃ rk, key r1 = some rk ∧ k ≠ rk) ∧
      (getBal n1 < -1 ∨ 1 < getBal n1 →
        (cases4 n1 k).count (some true) = 1 ∧ (cases4 n1 k).count (some false) = 3) ∧
      (-1 ≤ getBal n1 ∧ getBal n1 ≤ 1 →
        cases4 n1 k = [some false, some false, some false, some false] ∧
        ins (node nk nh l r) k = some n1) := by
  obtain ⟨⟨b1, b2, b3, b4⟩, ⟨e, hl, hr⟩, ⟨b0, bl, br⟩⟩ := h
  have hl0 := ht_nonneg l hl
  have hr0 := ht_nonneg r hr
  rcases lt_or_gt_of_ne hk with hk1 | hk1
  · obtain ⟨l1, i1, ⟨_, i3, _⟩, _, i6⟩ := ins_spec l k ⟨b3, hl, bl⟩
    have hi : ins (node nk nh l r) k = rebalance nk l1 r k := by simp [ins, hk1, i1]
    have key2 : 1 < ht l1 - ht r → ∃ lk, key l1 = some lk ∧ (k < lk ∨ lk < k) := by
      intro hb
      rcases i6 with i6 | ⟨i6, g⟩
      · omega
      · exact grow_key l1 k i3 g (by omega)
    refine ⟨_, l1, r, rfl, by simp [descend, hk1, i1], hi, ?_, ?_, ?_, ?_, ?_⟩
    · simp only [getBal_node]
      rcases i6 with i6 | ⟨i6, _⟩ <;> omega
    · simp only [getBal_node]
      intro hb
      obtain ⟨lk, h1, h2⟩ := key2 (by omega)
      exact ⟨lk, h1, by omega⟩
    · simp only [getBal_node]
      intro hb
      rcases i6 with i6 | ⟨i6, _⟩ <;> omega
    · simp only [getBal_node]
      intro hb
      have hb1 : 1 < ht l1 - ht r := by
        rcases i6 with i6 | ⟨i6, _⟩ <;> omega
      obtain ⟨lk, h1, h2⟩ := key2 hb1
      exact cases4_left nk _ l1 r k lk hb1 h1 h2
    · simp only [getBal_node]
      rintro ⟨c1, c2⟩
      exact ⟨cases4_none nk _ l1 r k c2 c1, by rw [hi, rebalance_noRot nk l1 r k c2 (by omega)]⟩
  · obtain ⟨r1, i1, ⟨_, i3, _⟩, _, i6⟩ := ins_spec r k ⟨b4, hr, br⟩
    have hk2 : ¬ k < nk := by omega
    have hi : ins (node nk nh l r) k = rebalance nk l r1 k := by simp [ins, hk1, hk2, i1]
    have key2 : ht l - ht r1 < -1 → ∃ rk, key r1 = some rk ∧ (k < rk ∨ rk < k) := by
      intro hb
      rcases i6 with i6 | ⟨i6, g⟩
      · omega
      · exact grow_key r1 k i3 g (by omega)
    refine ⟨_, l, r1, rfl, by simp [descend, hk1, hk2, i1], hi, ?_, ?_, ?_, ?_, ?_⟩
    · simp only [getBal_node]
      rcases i6 with i6 | ⟨i6, _⟩ <;> omega
    · simp only [getBal_node]
      intro hb
      rcases i6 with i6 | ⟨i6, _⟩ <;> omega
    · simp only [getBal_node]
      intro hb
      obtain ⟨rk, h1, h2⟩ := key2 (by omega)
      exact ⟨rk, h1, by omega⟩
    · simp only [getBal_node]
      intro hb
      have hb1 : ht l - ht r1 < -1 := by
        rcases i6 with i6 | ⟨i6, _⟩ <;> omega
      obtain ⟨rk, h1, h2⟩ := key2 hb1
      exact cases4_right nk _ l r1 k rk hb1 h1 h2
    · simp only [getBal_node]
      rintro ⟨c1, c2⟩
      exact ⟨cases4_none nk _ l r1 k c2 c1, by rw [hi, rebalance_noRot nk l r1 k c2 (by omega)]⟩

/-- Witness of C12: 20 inserted at the node 30 with the left child 10, the
Left-Right case. -/
theorem balance_cases_witness :
    ∃ n1 l1 r1, n1 = node 30 (1 + max (ht l1) (ht r1)) l1 r1 ∧
      descend (node 30 2 (node 10 1 nil nil) nil) 20 = some n1 ∧
      ins (node 30 2 (node 10 1 nil nil) nil) 20 = rebalance 30 l1 r1 20 ∧
      (-2 ≤ getBal n1 ∧ getBal n1 ≤ 2) ∧
      (getBal n1 = 2 → ∃ lk, key l1 = some lk ∧ (20 : Int) ≠ lk) ∧
      (getBal n1 = -2 → ∃ rk, key r1 = some rk ∧ (20 : Int) ≠ rk) ∧
      (getBal n1 < -1 ∨ 1 < getBal n1 →
        (cases4 n1 20).count (some true) = 1 ∧ (cases4 n1 20).count (some false) = 3) ∧
      (-1 ≤ getBal n1 ∧ getBal n1 ≤ 1 →
        cases4 n1 20 = [some false, some false, some false, some false] ∧
        ins (node 30 2 (node 10 1 nil nil) nil) 20 = some n1) :=
  balance_cases 30 2 (node 10 1 nil nil) nil 20 (by decide) (by decide)

/-! ## A rotation keeps the height -/

/-- A rotation at the root of the call leaves the height as it was. -/
theorem ins_rot_height : ∀ (n : N) (k b : Int), Inv n → balAfter n k = some b →
    (b < -1 ∨ 1 < b) → ∃ t1, ins n k = some t1 ∧ ht t1 = ht n
  | nil, _, _, _, hb, _ => by simp [balAfter, descend] at hb
  | node nk nh l r, k, b, ⟨⟨_, _, b3, b4⟩, ⟨e, hl, hr⟩, ⟨b0, bl, br⟩⟩, hb, hrot => by
    rcases lt_trichotomy k nk with hk | hk | hk
    · obtain ⟨l1, i1, ⟨_, i3, i4⟩, _, i6⟩ := ins_spec l k ⟨b3, hl, bl⟩
      obtain ⟨t1, r1, _, _, _, _, r6⟩ := rebalance_left nk l l1 r k i3 i4 hr br b0 i6 hk
      simp [balAfter, descend, hk, i1] at hb
      refine ⟨t1, by simp [ins, hk, i1, r1], ?_⟩
      rw [ht_node, e]
      apply r6
      rcases i6 with i6 | ⟨i6, _⟩ <;> omega
    · simp [balAfter, descend, hk] at hb
    · obtain ⟨r1, i1, ⟨_, i3, i4⟩, _, i6⟩ := ins_spec r k ⟨b4, hr, br⟩
      obtain ⟨t1, q1, _, _, _, _, q6⟩ := rebalance_right nk l r r1 k hl bl i3 i4 b0 i6 hk
      have hk1 : ¬ k < nk := by omega
      simp [balAfter, descend, hk, hk1, i1] at hb
      refine ⟨t1, by simp [ins, hk, hk1, i1, q1], ?_⟩
      rw [ht_node, e]
      apply q6
      rcases i6 with i6 | ⟨i6, _⟩ <;> omega

/-- If the recursive call into the left child returns a tree of the old height,
the node is returned with its height field, not rotated. -/
theorem ins_parent_left (pk ph : Int) (l l1 r : N) (k : Int)
    (hh : ph = 1 + max (ht l) (ht r)) (hb : ht l - ht r ≤ 1 ∧ ht r - ht l ≤ 1)
    (hk : k < pk) (h1 : ins l k = some l1) (h2 : ht l1 = ht l) :
    ins (node pk ph l r) k = some (node pk ph l1 r) := by
  have := rebalance_noRot pk l1 r k (by omega) (by omega)
  simp [ins, hk, h1, this, h2, hh]

/-- If the recursive call into the right child returns a tree of the old
height, the node is returned with its height field, not rotated. -/
theorem ins_parent_right (pk ph : Int) (l r r1 : N) (k : Int)
    (hh : ph = 1 + max (ht l) (ht r)) (hb : ht l - ht r ≤ 1 ∧ ht r - ht l ≤ 1)
    (hk : pk < k) (h1 : ins r k = some r1) (h2 : ht r1 = ht r) :
    ins (node pk ph l r) k = some (node pk ph l r1) := by
  have := rebalance_noRot pk l r1 k (by omega) (by omega)
  have hk1 : ¬ k < pk := by omega
  simp [ins, hk, hk1, h1, this, h2, hh]

/-- C14: let `n` be a node below the ancestors `c` in a tree that satisfies the
invariants, on the search path of `k`.  If the balance factor computed at `n`
in the call `ins(n, k)` is outside [-1, 1], so that `n` is rotated, the
subtree `t1` returned for `n` has the height `n` had before; the call on the
whole tree returns the old ancestors around `t1`: no ancestor is rotated, and
every ancestor has the height and the balance factor it had before. -/
theorem rotation_keeps_height (c : Ctx) (n : N) (k b : Int)
    (hi : BST (plug c n) ∧ HeightOK (plug c n) ∧ Balanced (plug c n)) (hp : onPath c k)
    (hb : balAfter n k = some b) (hrot : b < -1 ∨ 1 < b) :
    ∃ t1, ins n k = some t1 ∧ ht t1 = ht n ∧
      ins (plug c n) k = some (plug c t1) ∧ ht (plug c t1) = ht (plug c n) ∧
      (c ≠ Ctx.hole → getBal (plug c t1) = getBal (plug c n)) := by
  induction c with
  | hole =>
    obtain ⟨t1, h1, h2⟩ := ins_rot_height n k b hi hb hrot
    exact ⟨t1, h1, h2, h1, h2, fun h => absurd rfl h⟩
  | inL pk ph c r ih =>
    obtain ⟨⟨_, _, b3, _⟩, ⟨e, hl, _⟩, ⟨b0, bl, _⟩⟩ := hi
    obtain ⟨t1, h1, h2, h3, h4, _⟩ := ih ⟨b3, hl, bl⟩ hp.2
    refine ⟨t1, h1, h2, ins_parent_left pk ph _ _ r k e b0 hp.1 h3 h4, rfl, fun _ => ?_⟩
    simp only [plug, getBal_node, h4]
  | inR pk ph l c ih =>
    obtain ⟨⟨_, _, _, b4⟩, ⟨e, _, hr⟩, ⟨b0, _, br⟩⟩ := hi
    obtain ⟨t1, h1, h2, h3, h4, _⟩ := ih ⟨b4, hr, br⟩ hp.2
    refine ⟨t1, h1, h2, ins_parent_right pk ph l _ _ k e b0 hp.1 h3 h4, rfl, fun _ => ?_⟩
    simp only [plug, getBal_node, h4]

/-- Witness of C14: 50 inserted into the tree built from 10, 20, 30, 40; the
node 30 below the root 20 is rotated. -/
theorem rotation_keeps_height_witness :
    ∃ t1, ins (node 30 2 nil (node 40 1 nil nil)) 50 = some t1 ∧
      ht t1 = ht (node 30 2 nil (node 40 1 nil nil)) ∧
      ins (plug (Ctx.inR 20 3 (node 10 1 nil nil) Ctx.hole) (node 30 2 nil (node 40 1 nil nil))) 50
        = some (plug (Ctx.inR 20 3 (node 10 1 nil nil) Ctx.hole) t1) ∧
      ht (plug (Ctx.inR 20 3 (node 10 1 nil nil) Ctx.hole) t1)
        = ht (plug (Ctx.inR 20 3 (node 10 1 nil nil) Ctx.hole)
            (node 30 2 nil (node 40 1 nil nil))) ∧
      (Ctx.inR 20 3 (node 10 1 nil nil) Ctx.hole ≠ Ctx.hole →
        getBal (plug (Ctx.inR 20 3 (node 10 1 nil nil) Ctx.hole) t1)
          = getBal (plug (Ctx.inR 20 3 (node 10 1 nil nil) Ctx.hole)
              (node 30 2 nil (node 40 1 nil nil)))) :=
  rotation_keeps_height (Ctx.inR 20 3 (node 10 1 nil nil) Ctx.hole)
    (node 30 2 nil (node 40 1 nil nil)) 50 (-2) (by decide) (by decide) (by decide) (by decide)

end AVL
